import Mathlib

/-!
Verification of `tensorflow_addons/image/threshold_ops.py`.

The three operations (`basic_threshold`, `adaptive_threshold`,
`otsu_thresholding`) are shallowly embedded: a 2D image of height `r` and
width `c` is a function `Fin r → Fin c → α` (integer intensities are `ℕ`/`ℤ`,
the float32 intensities of the adaptive path are modelled exactly as `ℚ`).
Python exceptions are modelled with `Except`; the `while` loops of the
adaptive tiler are modelled by structurally equivalent recursions.
-/

namespace ThresholdOps

/-- Error outcomes of the Python validation code: `invalidShape` models the
`ValueError` raised by the rank check (the spec's `InvalidShapeError`),
`invalidArgument` the `ValueError` raised by the threshold/window checks
(the spec's `InvalidArgumentError`), and `unpackMismatch` the `ValueError`
raised by Python when `r, c = image.shape` unpacks a shape whose length is
not 2. -/
inductive PyErr where
  | invalidShape
  | invalidArgument
  | unpackMismatch
deriving DecidableEq, Repr

/-- Model of `tf.where(image > threshold, 255, 0)` (line 56): elementwise
strict comparison of the 2D integer image against the integer threshold. -/
def basicThreshold {r c : ℕ} (img : Fin r → Fin c → ℤ) (threshold : ℤ) :
    Fin r → Fin c → ℤ :=
  fun x y => if threshold < img x y then 255 else 0

/-- Row-major flattening of a 2D image, the order in which `tf.math.bincount`
sees the pixels (the order is irrelevant to the counts). -/
def flatten {r c : ℕ} (img : Fin r → Fin c → ℕ) : List ℕ :=
  (List.finRange r).flatMap (fun x => (List.finRange c).map (fun y => img x y))

/-- Length of the list produced by `tf.math.bincount` on non-negative data:
one bin per value from `0` up to the maximum value present (empty input gives
an empty histogram). -/
def bclen (l : List ℕ) : ℕ := l.foldr (fun v m => max (v + 1) m) 0

/-- Model of `tf.math.bincount` (line 150): bin `k` holds the number of
occurrences of value `k`. -/
def bincount (l : List ℕ) : List ℕ :=
  (List.range (bclen l)).map (fun k => l.count k)

/-- Lines 150–153: the bincount histogram, padded with zero bins to length
256 when shorter (`hist = tf.concat([hist, [0] * (256 - len(hist))], 0)`). -/
def histogram {r c : ℕ} (img : Fin r → Fin c → ℕ) : List ℕ :=
  bincount (flatten img) ++
    List.replicate (256 - (bincount (flatten img)).length) 0

/-- Entry `hist[i]` of the padded histogram (out-of-range reads default to 0;
the code only reads indexes 0..255, which are always in range). -/
def histAt {r c : ℕ} (img : Fin r → Fin c → ℕ) (i : ℕ) : ℕ :=
  (histogram img).getD i 0

/-- Line 156: `total = r * c`. -/
def total (r c : ℕ) : ℕ := r * c

/-- Lines 158–163: prefix sums of histogram counts,
`spre[i] = hist[0] + ... + hist[i]`. -/
def spre {r c : ℕ} (img : Fin r → Fin c → ℕ) (i : ℕ) : ℕ :=
  ∑ k ∈ Finset.range (i + 1), histAt img k

/-- Lines 159–164: prefix sums of intensity-weighted counts,
`sw[i] = 0*hist[0] + 1*hist[1] + ... + i*hist[i]`. -/
def sw {r c : ℕ} (img : Fin r → Fin c → ℕ) (i : ℕ) : ℕ :=
  ∑ k ∈ Finset.range (i + 1), k * histAt img k

/-- Line 170: `meanB = 0 if int(spre[i]) == 0 else sw[i] / spre[i]` (exact
model of Python float division over the integer prefix sums). -/
def meanB {r c : ℕ} (img : Fin r → Fin c → ℕ) (i : ℕ) : ℚ :=
  if spre img i = 0 then 0 else (sw img i : ℚ) / (spre img i : ℚ)

/-- Line 171: `meanF = (sw[255] - sw[i]) / (total - spre[i])`. -/
def meanF {r c : ℕ} (img : Fin r → Fin c → ℕ) (i : ℕ) : ℚ :=
  ((sw img 255 : ℚ) - (sw img i : ℚ)) / ((total r c : ℚ) - (spre img i : ℚ))

/-- Line 172: `varBetween = (total - spre[i]) * spre[i] * ((meanB - meanF)**2)`. -/
def varBetween {r c : ℕ} (img : Fin r → Fin c → ℕ) (i : ℕ) : ℚ :=
  ((total r c : ℚ) - (spre img i : ℚ)) * (spre img i : ℚ) *
    (meanB img i - meanF img i) ^ 2

/-- Lines 166–176: the candidate scan.  State `(current_max, threshold)`
starts at `(0, 0)`; at index `i < 256` the loop first breaks when
`total - spre[i] == 0`, otherwise updates the running maximum under the
strict comparison `varBetween > current_max`. -/
def otsuGo {r c : ℕ} (img : Fin r → Fin c → ℕ) (i : ℕ) (currentMax : ℚ)
    (threshold : ℕ) : ℕ :=
  if h : i < 256 then
    if (total r c : ℤ) - (spre img i : ℤ) = 0 then threshold
    else if currentMax < varBetween img i then
      otsuGo img (i + 1) (varBetween img i) i
    else otsuGo img (i + 1) currentMax threshold
  else threshold
termination_by 256 - i
decreasing_by all_goals omega

/-- The threshold selected by the Otsu scan (lines 155–176). -/
def otsuThreshold {r c : ℕ} (img : Fin r → Fin c → ℕ) : ℕ :=
  otsuGo img 0 0 0

/-- Line 178: `final = tf.where(image > threshold, 255, 0)` with the selected
Otsu threshold. -/
def otsuOut {r c : ℕ} (img : Fin r → Fin c → ℕ) : Fin r → Fin c → ℤ :=
  fun x y => if otsuThreshold img < img x y then 255 else 0

/-- Index at which the scan of lines 166–176 stops: the first `i < 256` with
`total - spre[i] == 0`, or 256 when the scan runs to completion.  (This is
specification vocabulary for stating C1; the code does not materialise it.) -/
def scanEndGo {r c : ℕ} (img : Fin r → Fin c → ℕ) (i : ℕ) : ℕ :=
  if h : i < 256 then
    if (total r c : ℤ) - (spre img i : ℤ) = 0 then i else scanEndGo img (i + 1)
  else 256
termination_by 256 - i
decreasing_by all_goals omega

/-- First index where the Otsu scan stops (`countAbove == 0`), capped at 256. -/
def scanEnd {r c : ℕ} (img : Fin r → Fin c → ℕ) : ℕ := scanEndGo img 0

/-- Tile start indexes produced by a `while i < n: ...; i += window` loop
(lines 101–120) for a positive window: `0, w, 2w, ...` strictly below `n`. -/
def tsGo (n w : ℕ) (hw : 0 < w) (i : ℕ) : List ℕ :=
  if _h : i < n then i :: tsGo n w hw (i + w) else []
termination_by n - i
decreasing_by all_goals omega

/-- Start indexes of the tiles along one axis of length `n` (the values the
loop variable takes), for window `w > 0`. -/
def tileStarts (n w : ℕ) (hw : 0 < w) : List ℕ := tsGo n w hw 0

/-- Number of tiles the nested loops of lines 101–120 process. -/
def numTiles (r c w : ℕ) (hw : 0 < w) : ℕ :=
  (tileStarts r w hw).length * (tileStarts c w hw).length

/-- Rows of the tile starting at row `i`: the slice `image[i:min(i+w,r)]`
(line 103/106). -/
def tileRows (r w i : ℕ) : Finset (Fin r) :=
  Finset.univ.filter (fun a => i ≤ (a : ℕ) ∧ (a : ℕ) < min (i + w) r)

/-- Columns of the tile starting at column `j`: the slice
`image[…, j:min(j+w,c)]` (line 105/106). -/
def tileCols (c w j : ℕ) : Finset (Fin c) :=
  Finset.univ.filter (fun b => j ≤ (b : ℕ) ∧ (b : ℕ) < min (j + w) c)

/-- Line 107: `thresh = tf.reduce_mean(cur)` — the arithmetic mean of the
tile `cur = image[i:min(i+w,r), j:min(j+w,c)]` (float arithmetic modelled
exactly in `ℚ`). -/
def tileMean {r c : ℕ} (img : Fin r → Fin c → ℚ) (w i j : ℕ) : ℚ :=
  (∑ a ∈ tileRows r w i, ∑ b ∈ tileCols c w j, img a b) /
    (((tileRows r w i).card * (tileCols c w j).card : ℕ) : ℚ)

/-- Line 108: `new = tf.where(cur > thresh, 255.0, 0.0)` — the value the tile
starting at `(i, j)` assigns to pixel `(x, y)`. -/
def tileVal {r c : ℕ} (img : Fin r → Fin c → ℚ) (w i j : ℕ)
    (x : Fin r) (y : Fin c) : ℚ :=
  if tileMean img w i j < img x y then 255 else 0

/-- Lines 110–118: `tf.tensor_scatter_nd_update(final, ind, …)` — update the
accumulator at the meshgrid positions `[i, min(i+w,r)) × [j, min(j+w,c))` of
the tile with the thresholded tile values, keep all other positions. -/
def scatterTile {r c : ℕ} (img : Fin r → Fin c → ℚ) (w i j : ℕ)
    (acc : Fin r → Fin c → ℚ) : Fin r → Fin c → ℚ :=
  fun x y =>
    if (i ≤ (x : ℕ) ∧ (x : ℕ) < min (i + w) r) ∧
        (j ≤ (y : ℕ) ∧ (y : ℕ) < min (j + w) c)
    then tileVal img w i j x y else acc x y

/-- Lines 99–121: the nested tiling loops.  `final` starts as
`tf.zeros((r, c))` and each `(i, j)` tile is scattered into it in loop
order. -/
def adaptiveThreshold {r c : ℕ} (img : Fin r → Fin c → ℚ) (w : ℕ)
    (hw : 0 < w) : Fin r → Fin c → ℚ :=
  (tileStarts r w hw).foldl
    (fun acc i =>
      (tileStarts c w hw).foldl (fun acc2 j => scatterTile img w i j acc2) acc)
    (fun _ _ => 0)

/-- Lines 88–91: the window validation of `adaptive_threshold`:
`if window > min(r, c): raise ValueError(...)`. -/
def adaptiveWindowCheck (r c : ℕ) (w : ℤ) : Except PyErr Unit :=
  if min (r : ℤ) (c : ℤ) < w then Except.error PyErr.invalidArgument
  else Except.ok ()

/-- The rank-2 `adaptive_threshold` pipeline: window validation (lines
88–91), then the tiling computation (lines 99–121).  An `Except.error`
outcome produces no output at all, matching the Python exception aborting
the call before the loops run. -/
def adaptiveChecked {r c : ℕ} (img : Fin r → Fin c → ℚ) (w : ℤ)
    (hw : 0 < w) : Except PyErr (Fin r → Fin c → ℚ) :=
  (adaptiveWindowCheck r c w).map
    (fun _ => adaptiveThreshold img w.toNat (by omega))

/-- Python tuple unpacking `r, c = image.shape` (lines 88 and 149): succeeds
only when the shape has exactly two entries, otherwise raises `ValueError`
("too many values to unpack" for a rank-3 shape). -/
def unpackHW : List ℕ → Except PyErr (ℕ × ℕ)
  | [a, b] => Except.ok (a, b)
  | _ => Except.error PyErr.unpackMismatch

/-- Lines 142–149 of `otsu_thresholding`: the rank check (`rank != 2 and
rank != 3` raises) followed by `r, c = image.shape`.  No grayscale reduction
occurs anywhere in the function. -/
def otsuShapePhase (shape : List ℕ) : Except PyErr (ℕ × ℕ) :=
  if shape.length = 2 ∨ shape.length = 3 then unpackHW shape
  else Except.error PyErr.invalidShape

/-- Lines 81–88 of `adaptive_threshold`: the rank check followed by
`r, c = image.shape`, which runs before the rank-3 grayscale branch of lines
93–95. -/
def adaptiveShapePhase (shape : List ℕ) : Except PyErr (ℕ × ℕ) :=
  if shape.length = 2 ∨ shape.length = 3 then unpackHW shape
  else Except.error PyErr.invalidShape

/-- Fuel-indexed model of the loop `while i < bound: …; i += w` with an
integer stride `w` (lines 101–120 use this shape for both loop levels).
`none` means the loop is still running after `fuel` iterations; `some l`
means it terminated, having visited the start indexes in `l`. -/
def strideLoop (bound w : ℤ) : ℕ → ℤ → Option (List ℤ)
  | 0, i => if i < bound then none else some []
  | Nat.succ f, i =>
    if i < bound then (strideLoop bound w f (i + w)).map (List.cons i)
    else some []

lemma replicate_getD (n i : ℕ) : (List.replicate n (0 : ℕ)).getD i 0 = 0 := by
  rw [List.getD_eq_getElem?_getD, List.getElem?_replicate]
  split <;> rfl

lemma lt_bclen_of_mem : ∀ {l : List ℕ} {v : ℕ}, v ∈ l → v < bclen l := by
  intro l
  induction l with
  | nil => simp
  | cons a t ih =>
    intro v hv
    unfold bclen at *
    simp only [List.foldr_cons]
    rcases List.mem_cons.1 hv with h | h
    · subst h; omega
    · have := ih h; omega

lemma bincount_length (l : List ℕ) : (bincount l).length = bclen l := by
  simp [bincount]

lemma histAt_eq_count {r c : ℕ} (img : Fin r → Fin c → ℕ) (i : ℕ) :
    histAt img i = (flatten img).count i := by
  unfold histAt histogram
  by_cases h : i < (bincount (flatten img)).length
  · rw [List.getD_append _ _ _ _ h, List.getD_eq_getElem _ _ h]
    simp [bincount]
  · push_neg at h
    rw [List.getD_append_right _ _ _ _ h, replicate_getD]
    symm
    rw [List.count_eq_zero]
    intro hmem
    have h1 := lt_bclen_of_mem hmem
    rw [bincount_length] at h
    omega

lemma histAt_le_count {r c : ℕ} (img : Fin r → Fin c → ℕ) (i : ℕ) :
    histAt img i ≤ (flatten img).count i := by
  unfold histAt histogram
  by_cases h : i < (bincount (flatten img)).length
  · rw [List.getD_append _ _ _ _ h, List.getD_eq_getElem _ _ h]
    simp [bincount]
  · push_neg at h
    rw [List.getD_append_right _ _ _ _ h, replicate_getD]
    exact Nat.zero_le _

lemma sum_count_le_length (n : ℕ) (l : List ℕ) :
    (∑ k ∈ Finset.range n, l.count k) ≤ l.length := by
  induction l with
  | nil => simp
  | cons a t ih =>
    have hsplit : (∑ k ∈ Finset.range n, (a :: t).count k)
        = (∑ k ∈ Finset.range n, t.count k)
          + (∑ k ∈ Finset.range n, if a = k then 1 else 0) := by
      rw [← Finset.sum_add_distrib]
      refine Finset.sum_congr rfl fun k _ => ?_
      simp [List.count_cons]
    rw [hsplit, Finset.sum_ite_eq]
    simp only [List.length_cons]
    split <;> omega

lemma sum_count_eq_length (n : ℕ) (l : List ℕ) (h : ∀ v ∈ l, v < n) :
    (∑ k ∈ Finset.range n, l.count k) = l.length := by
  induction l with
  | nil => simp
  | cons a t ih =>
    have hsplit : (∑ k ∈ Finset.range n, (a :: t).count k)
        = (∑ k ∈ Finset.range n, t.count k)
          + (∑ k ∈ Finset.range n, if a = k then 1 else 0) := by
      rw [← Finset.sum_add_distrib]
      refine Finset.sum_congr rfl fun k _ => ?_
      simp [List.count_cons]
    rw [hsplit, Finset.sum_ite_eq, ih (fun v hv => h v (List.mem_cons_of_mem a hv))]
    have ha : a ∈ Finset.range n := Finset.mem_range.2 (h a (List.mem_cons_self a t))
    rw [if_pos ha]
    simp

lemma flatten_length {r c : ℕ} (img : Fin r → Fin c → ℕ) :
    (flatten img).length = r * c := by
  unfold flatten
  rw [List.length_flatMap]
  have h1 : List.map (List.length ∘ fun x => List.map (fun y => img x y) (List.finRange c))
      (List.finRange r) = List.map (Function.const (Fin r) c) (List.finRange r) := by
    refine List.map_congr_left fun x _ => ?_
    simp
  rw [h1, List.map_const, List.length_finRange, List.sum_replicate, smul_eq_mul]

lemma mem_flatten {r c : ℕ} (img : Fin r → Fin c → ℕ) (a : ℕ) :
    a ∈ flatten img ↔ ∃ x y, a = img x y := by
  simp [flatten, List.mem_flatMap, eq_comm]

lemma spre_le_total {r c : ℕ} (img : Fin r → Fin c → ℕ) (i : ℕ) :
    spre img i ≤ total r c := by
  unfold spre total
  calc (∑ k ∈ Finset.range (i + 1), histAt img k)
      ≤ ∑ k ∈ Finset.range (i + 1), (flatten img).count k :=
        Finset.sum_le_sum fun k _ => histAt_le_count img k
    _ ≤ (flatten img).length := sum_count_le_length _ _
    _ = r * c := flatten_length img

lemma varBetween_nonneg {r c : ℕ} (img : Fin r → Fin c → ℕ) (i : ℕ) :
    0 ≤ varBetween img i := by
  unfold varBetween
  have h1 : (0 : ℚ) ≤ (total r c : ℚ) - (spre img i : ℚ) := by
    rw [sub_nonneg]
    exact_mod_cast spre_le_total img i
  exact mul_nonneg (mul_nonneg h1 (by positivity)) (sq_nonneg _)

theorem scanEndGo_spec {r c : ℕ} (img : Fin r → Fin c → ℕ) (i : ℕ) (hi : i ≤ 256) :
    i ≤ scanEndGo img i ∧ scanEndGo img i ≤ 256 ∧
    (∀ j, i ≤ j → j < scanEndGo img i → (total r c : ℤ) - (spre img j : ℤ) ≠ 0) ∧
    (scanEndGo img i < 256 → (total r c : ℤ) - (spre img (scanEndGo img i) : ℤ) = 0) := by
  rw [scanEndGo]
  split
  · rename_i h
    split
    · rename_i hstop
      exact ⟨le_refl _, by omega, fun j hj1 hj2 => by omega, fun _ => hstop⟩
    · rename_i hstop
      have IH := scanEndGo_spec img (i + 1) (by omega)
      refine ⟨by omega, IH.2.1, ?_, IH.2.2.2⟩
      intro j hj1 hj2
      rcases eq_or_lt_of_le hj1 with rfl | h2
      · exact hstop
      · exact IH.2.2.1 j (by omega) hj2
  · rename_i h
    exact ⟨by omega, le_refl _, fun j hj1 hj2 => by omega,
      fun hlt => absurd hlt (lt_irrefl _)⟩
termination_by 256 - i
decreasing_by all_goals omega

lemma scanEnd_le_256 {r c : ℕ} (img : Fin r → Fin c → ℕ) : scanEnd img ≤ 256 :=
  (scanEndGo_spec img 0 (by omega)).2.1

lemma scanEnd_not_stop {r c : ℕ} (img : Fin r → Fin c → ℕ) {j : ℕ}
    (hj : j < scanEnd img) : (total r c : ℤ) - (spre img j : ℤ) ≠ 0 :=
  (scanEndGo_spec img 0 (by omega)).2.2.1 j (Nat.zero_le j) hj

lemma scanEnd_stop {r c : ℕ} (img : Fin r → Fin c → ℕ)
    (h : scanEnd img < 256) : (total r c : ℤ) - (spre img (scanEnd img) : ℤ) = 0 :=
  (scanEndGo_spec img 0 (by omega)).2.2.2 h

theorem otsuGo_spec {r c : ℕ} (img : Fin r → Fin c → ℕ) (i : ℕ) (cm : ℚ) (th : ℕ)
    (hi : i ≤ scanEnd img)
    (hinv : (cm = 0 ∧ th = 0 ∧ ∀ j, j < i → varBetween img j ≤ 0) ∨
      (th < i ∧ cm = varBetween img th ∧ 0 < cm ∧
        (∀ j, j < i → varBetween img j ≤ cm) ∧
        ∀ j, j < th → varBetween img j < cm)) :
    (otsuGo img i cm th = 0 ∧ ∀ j, j < scanEnd img → varBetween img j ≤ 0) ∨
    (otsuGo img i cm th < scanEnd img ∧
      0 < varBetween img (otsuGo img i cm th) ∧
      (∀ j, j < scanEnd img → varBetween img j ≤ varBetween img (otsuGo img i cm th)) ∧
      ∀ j, j < otsuGo img i cm th →
        varBetween img j < varBetween img (otsuGo img i cm th)) := by
  rw [otsuGo]
  split
  · rename_i h256
    split
    · rename_i hstop
      have hse : scanEnd img = i := by
        rcases lt_or_eq_of_le hi with hlt | heq
        · exact absurd hstop (scanEnd_not_stop img hlt)
        · omega
      rcases hinv with ⟨hcm, hth, hall⟩ | ⟨hth, hcm, hpos, hall, hties⟩
      · left
        exact ⟨hth, by rw [hse]; exact hall⟩
      · right
        refine ⟨by omega, ?_, ?_, ?_⟩
        · rw [← hcm]; exact hpos
        · rw [hse, ← hcm]; exact hall
        · intro j hj
          rw [← hcm]
          exact hties j hj
    · rename_i hstop
      have hlt_se : i < scanEnd img := by
        rcases lt_or_eq_of_le hi with hlt | heq
        · exact hlt
        · exfalso
          apply hstop
          have := scanEnd_stop img (by omega)
          rw [← heq] at this
          exact this
      have hcm_nonneg : 0 ≤ cm := by
        rcases hinv with ⟨hcm, _, _⟩ | ⟨_, _, hpos, _, _⟩
        · rw [hcm]
        · exact le_of_lt hpos
      split
      · rename_i hupd
        refine otsuGo_spec img (i + 1) (varBetween img i) i (by omega) (Or.inr ?_)
        refine ⟨by omega, rfl, lt_of_le_of_lt hcm_nonneg hupd, ?_, ?_⟩
        · intro j hj
          rcases Nat.lt_succ_iff_lt_or_eq.1 hj with hj' | rfl
          · rcases hinv with ⟨hcm, _, hall⟩ | ⟨_, _, _, hall, _⟩
            · exact le_of_lt (lt_of_le_of_lt (by rw [hcm]; exact hall j hj') hupd)
            · exact le_of_lt (lt_of_le_of_lt (hall j hj') hupd)
          · exact le_refl _
        · intro j hj
          rcases hinv with ⟨hcm, _, hall⟩ | ⟨_, _, _, hall, _⟩
          · exact lt_of_le_of_lt (by rw [hcm]; exact hall j hj) hupd
          · exact lt_of_le_of_lt (hall j hj) hupd
      · rename_i hupd
        push_neg at hupd
        refine otsuGo_spec img (i + 1) cm th (by omega) ?_
        rcases hinv with ⟨hcm, hth, hall⟩ | ⟨hth, hcm, hpos, hall, hties⟩
        · left
          refine ⟨hcm, hth, ?_⟩
          intro j hj
          rcases Nat.lt_succ_iff_lt_or_eq.1 hj with hj' | rfl
          · exact hall j hj'
          · rw [← hcm]; exact hupd
        · right
          refine ⟨by omega, hcm, hpos, ?_, hties⟩
          intro j hj
          rcases Nat.lt_succ_iff_lt_or_eq.1 hj with hj' | rfl
          · exact hall j hj'
          · exact hupd
  · rename_i h256
    have h1 := scanEnd_le_256 img
    have hse : scanEnd img = i := by omega
    rcases hinv with ⟨hcm, hth, hall⟩ | ⟨hth, hcm, hpos, hall, hties⟩
    · left
      exact ⟨hth, by rw [hse]; exact hall⟩
    · right
      refine ⟨by omega, ?_, ?_, ?_⟩
      · rw [← hcm]; exact hpos
      · rw [hse, ← hcm]; exact hall
      · intro j hj
        rw [← hcm]
        exact hties j hj
termination_by 256 - i
decreasing_by all_goals omega

theorem tsGo_mem (n w : ℕ) (hw : 0 < w) (i j : ℕ) :
    j ∈ tsGo n w hw i ↔ ∃ k, j = i + k * w ∧ j < n := by
  rw [tsGo]
  split
  · rename_i h
    rw [List.mem_cons, tsGo_mem n w hw (i + w) j]
    constructor
    · rintro (rfl | ⟨k, rfl, hk⟩)
      · exact ⟨0, by omega, h⟩
      · exact ⟨k + 1, by ring, hk⟩
    · rintro ⟨k, rfl, hk⟩
      cases k with
      | zero => left; omega
      | succ m => right; exact ⟨m, by ring, hk⟩
  · rename_i h
    constructor
    · intro hj
      exact absurd hj (List.not_mem_nil _)
    · rintro ⟨k, rfl, hk⟩
      exact absurd (lt_of_le_of_lt (Nat.le_add_right i (k * w)) hk) h
termination_by n - i
decreasing_by all_goals omega

lemma tileStarts_mem (n w : ℕ) (hw : 0 < w) (j : ℕ) :
    j ∈ tileStarts n w hw ↔ ∃ k, j = k * w ∧ j < n := by
  rw [tileStarts, tsGo_mem]
  constructor
  · rintro ⟨k, rfl, hk⟩
    exact ⟨k, by omega, hk⟩
  · rintro ⟨k, rfl, hk⟩
    exact ⟨k, by omega, hk⟩

lemma cover_start (r w : ℕ) (hw : 0 < w) (x : Fin r) :
    w * ((x : ℕ) / w) ∈ tileStarts r w hw ∧
    w * ((x : ℕ) / w) ≤ (x : ℕ) ∧
    (x : ℕ) < min (w * ((x : ℕ) / w) + w) r := by
  have hle : w * ((x : ℕ) / w) ≤ (x : ℕ) := by
    rw [mul_comm]
    exact Nat.div_mul_le_self _ _
  have hup : (x : ℕ) < w * ((x : ℕ) / w) + w := by
    conv_lhs => rw [← Nat.div_add_mod (x : ℕ) w]
    have := Nat.mod_lt (x : ℕ) hw
    omega
  have hx := x.isLt
  refine ⟨(tileStarts_mem r w hw _).2 ⟨(x : ℕ) / w, by ring, lt_of_le_of_lt hle hx⟩,
    hle, lt_min_iff.2 ⟨hup, hx⟩⟩

lemma cover_unique (w : ℕ) (hw : 0 < w) (j x : ℕ) (hj : ∃ k, j = k * w)
    (h1 : j ≤ x) (h2 : x < j + w) : j = w * (x / w) := by
  obtain ⟨k, rfl⟩ := hj
  have h3 : x < (k + 1) * w := by
    rw [add_mul, one_mul]
    exact h2
  rw [Nat.div_eq_of_lt_le h1 h3, mul_comm]

lemma inner_skip {r c : ℕ} (img : Fin r → Fin c → ℚ) (w i : ℕ) (L : List ℕ)
    (acc : Fin r → Fin c → ℚ) (x : Fin r) (y : Fin c)
    (hx : ¬(i ≤ (x : ℕ) ∧ (x : ℕ) < min (i + w) r)) :
    (L.foldl (fun a j => scatterTile img w i j a) acc) x y = acc x y := by
  induction L generalizing acc with
  | nil => rfl
  | cons a t ih =>
    rw [List.foldl_cons, ih]
    exact if_neg (fun hcond => hx hcond.1)

lemma inner_nocov {r c : ℕ} (img : Fin r → Fin c → ℚ) (w i : ℕ) (L : List ℕ)
    (acc : Fin r → Fin c → ℚ) (x : Fin r) (y : Fin c)
    (hall : ∀ j ∈ L, ¬(j ≤ (y : ℕ) ∧ (y : ℕ) < min (j + w) c)) :
    (L.foldl (fun a j => scatterTile img w i j a) acc) x y = acc x y := by
  induction L generalizing acc with
  | nil => rfl
  | cons a t ih =>
    rw [List.foldl_cons, ih _ (fun j hj => hall j (List.mem_cons_of_mem a hj))]
    exact if_neg (fun hcond => hall a (List.mem_cons_self a t) hcond.2)

lemma inner_cov {r c : ℕ} (img : Fin r → Fin c → ℚ) (w i : ℕ) (L : List ℕ)
    (acc : Fin r → Fin c → ℚ) (x : Fin r) (y : Fin c) (js : ℕ)
    (hx : i ≤ (x : ℕ) ∧ (x : ℕ) < min (i + w) r)
    (hmem : js ∈ L)
    (hcov : js ≤ (y : ℕ) ∧ (y : ℕ) < min (js + w) c)
    (huniq : ∀ j ∈ L, (j ≤ (y : ℕ) ∧ (y : ℕ) < min (j + w) c) → j = js) :
    (L.foldl (fun a j => scatterTile img w i j a) acc) x y
      = tileVal img w i js x y := by
  induction L generalizing acc with
  | nil => exact absurd hmem (List.not_mem_nil _)
  | cons a t ih =>
    rw [List.foldl_cons]
    by_cases ha : a = js
    · subst ha
      by_cases hmem2 : a ∈ t
      · exact ih _ hmem2 (fun j hj hc => huniq j (List.mem_cons_of_mem a hj) hc)
      · have hnone : ∀ j ∈ t, ¬(j ≤ (y : ℕ) ∧ (y : ℕ) < min (j + w) c) := by
          intro j hj hc
          exact hmem2 (huniq j (List.mem_cons_of_mem a hj) hc ▸ hj)
        rw [inner_nocov img w i t _ x y hnone]
        exact if_pos ⟨hx, hcov⟩
    · have hmem2 : js ∈ t := by
        rcases List.mem_cons.1 hmem with h | h
        · exact absurd h.symm ha
        · exact h
      exact ih _ hmem2 (fun j hj hc => huniq j (List.mem_cons_of_mem a hj) hc)

lemma outer_norow {r c : ℕ} (img : Fin r → Fin c → ℚ) (w : ℕ) (hw : 0 < w)
    (L : List ℕ) (acc : Fin r → Fin c → ℚ) (x : Fin r) (y : Fin c)
    (hall : ∀ i ∈ L, ¬(i ≤ (x : ℕ) ∧ (x : ℕ) < min (i + w) r)) :
    (L.foldl (fun acc2 i =>
        (tileStarts c w hw).foldl (fun a j => scatterTile img w i j a) acc2)
      acc) x y = acc x y := by
  induction L generalizing acc with
  | nil => rfl
  | cons a t ih =>
    rw [List.foldl_cons, ih _ (fun i hi => hall i (List.mem_cons_of_mem a hi))]
    exact inner_skip img w a _ acc x y (hall a (List.mem_cons_self a t))

lemma outer_cov {r c : ℕ} (img : Fin r → Fin c → ℚ) (w : ℕ) (hw : 0 < w)
    (L : List ℕ) (acc : Fin r → Fin c → ℚ) (x : Fin r) (y : Fin c)
    (is js : ℕ)
    (hmem : is ∈ L)
    (hrow : is ≤ (x : ℕ) ∧ (x : ℕ) < min (is + w) r)
    (huniqr : ∀ i ∈ L, (i ≤ (x : ℕ) ∧ (x : ℕ) < min (i + w) r) → i = is)
    (hmemc : js ∈ tileStarts c w hw)
    (hcol : js ≤ (y : ℕ) ∧ (y : ℕ) < min (js + w) c)
    (huniqc : ∀ j ∈ tileStarts c w hw,
      (j ≤ (y : ℕ) ∧ (y : ℕ) < min (j + w) c) → j = js) :
    (L.foldl (fun acc2 i =>
        (tileStarts c w hw).foldl (fun a j => scatterTile img w i j a) acc2)
      acc) x y = tileVal img w is js x y := by
  induction L generalizing acc with
  | nil => exact absurd hmem (List.not_mem_nil _)
  | cons a t ih =>
    rw [List.foldl_cons]
    by_cases ha : a = is
    · subst ha
      by_cases hmem2 : a ∈ t
      · exact ih _ hmem2 (fun i hi hc => huniqr i (List.mem_cons_of_mem a hi) hc)
      · have hnone : ∀ i ∈ t, ¬(i ≤ (x : ℕ) ∧ (x : ℕ) < min (i + w) r) := by
          intro i hi hc
          exact hmem2 (huniqr i (List.mem_cons_of_mem a hi) hc ▸ hi)
        rw [outer_norow img w hw t _ x y hnone]
        exact inner_cov img w a _ acc x y js hrow hmemc hcol huniqc
    · have hmem2 : is ∈ t := by
        rcases List.mem_cons.1 hmem with h | h
        · exact absurd h.symm ha
        · exact h
      exact ih _ hmem2 (fun i hi hc => huniqr i (List.mem_cons_of_mem a hi) hc)

lemma startUniq {n w : ℕ} (hw : 0 < w) {j v : ℕ}
    (hj : j ∈ tileStarts n w hw) (hc : j ≤ v ∧ v < min (j + w) n) :
    j = w * (v / w) := by
  obtain ⟨k, rfl, _⟩ := (tileStarts_mem n w hw j).1 hj
  exact cover_unique w hw _ v ⟨k, rfl⟩ hc.1 (lt_min_iff.1 hc.2).1

lemma adaptive_apply {r c : ℕ} (img : Fin r → Fin c → ℚ) (w : ℕ) (hw : 0 < w)
    (x : Fin r) (y : Fin c) :
    adaptiveThreshold img w hw x y
      = tileVal img w (w * ((x : ℕ) / w)) (w * ((y : ℕ) / w)) x y := by
  obtain ⟨hmemx, hlex, hltx⟩ := cover_start r w hw x
  obtain ⟨hmemy, hley, hlty⟩ := cover_start c w hw y
  unfold adaptiveThreshold
  exact outer_cov img w hw (tileStarts r w hw) _ x y _ _ hmemx ⟨hlex, hltx⟩
    (fun i hi hc => startUniq hw hi hc)
    hmemy ⟨hley, hlty⟩
    (fun j hj hc => startUniq hw hj hc)

lemma strideLoop_diverges (bound w : ℤ) (hb : 0 < bound) (hw : w ≤ 0) :
    ∀ (fuel : ℕ) (i : ℤ), i ≤ 0 → strideLoop bound w fuel i = none := by
  intro fuel
  induction fuel with
  | zero =>
    intro i hi
    unfold strideLoop
    rw [if_pos (by omega)]
  | succ f ih =>
    intro i hi
    unfold strideLoop
    rw [if_pos (by omega), ih (i + w) (by omega)]
    rfl

lemma strideLoop_terminates (bound w : ℤ) (hw : 1 ≤ w) :
    ∀ (fuel : ℕ) (i : ℤ), bound - i ≤ (fuel : ℤ) →
      ∃ l, strideLoop bound w fuel i = some l := by
  intro fuel
  induction fuel with
  | zero =>
    intro i hi
    unfold strideLoop
    rw [if_neg (by omega)]
    exact ⟨[], rfl⟩
  | succ f ih =>
    intro i hi
    unfold strideLoop
    by_cases h : i < bound
    · rw [if_pos h]
      obtain ⟨l, hl⟩ := ih (i + w) (by push_cast at hi ⊢; omega)
      exact ⟨i :: l, by rw [hl]; rfl⟩
    · rw [if_neg h]
      exact ⟨[], rfl⟩

lemma sum_map_range (f : ℕ → ℕ) (n : ℕ) :
    ((List.range n).map f).sum = ∑ k ∈ Finset.range n, f k := by
  induction n with
  | zero => simp
  | succ m ih =>
    rw [List.range_succ, List.map_append, List.sum_append, Finset.sum_range_succ, ih]
    simp

lemma bclen_le {n : ℕ} : ∀ {l : List ℕ}, (∀ v ∈ l, v < n) → bclen l ≤ n := by
  intro l
  induction l with
  | nil => intro _; simp [bclen]
  | cons a t ih =>
    intro h
    unfold bclen at *
    simp only [List.foldr_cons]
    have h1 := h a (List.mem_cons_self a t)
    have h2 := ih (fun v hv => h v (List.mem_cons_of_mem a hv))
    omega

lemma const_count {r c : ℕ} (v k : ℕ) :
    (flatten (fun _ _ => v : Fin r → Fin c → ℕ)).count k
      = if k = v then r * c else 0 := by
  by_cases h : k = v
  · subst h
    rw [if_pos rfl, ← flatten_length (fun _ _ => k : Fin r → Fin c → ℕ),
      List.count_eq_length]
    intro b hb
    rcases (mem_flatten _ b).1 hb with ⟨x, y, hxy⟩
    exact hxy.symm
  · rw [if_neg h, List.count_eq_zero]
    intro hmem
    rcases (mem_flatten _ k).1 hmem with ⟨x, y, hxy⟩
    exact h hxy

lemma const_spre {r c : ℕ} (v i : ℕ) :
    spre (fun _ _ => v : Fin r → Fin c → ℕ) i = if v ≤ i then r * c else 0 := by
  unfold spre
  have h1 : ∀ k, histAt (fun _ _ => v : Fin r → Fin c → ℕ) k
      = if k = v then r * c else 0 := fun k => by
    rw [histAt_eq_count, const_count]
  calc (∑ k ∈ Finset.range (i + 1), histAt (fun _ _ => v : Fin r → Fin c → ℕ) k)
      = ∑ k ∈ Finset.range (i + 1), if k = v then r * c else 0 :=
        Finset.sum_congr rfl fun k _ => h1 k
    _ = if v ∈ Finset.range (i + 1) then r * c else 0 := Finset.sum_ite_eq' _ v _
    _ = if v ≤ i then r * c else 0 := by
        simp [Finset.mem_range, Nat.lt_succ_iff]

lemma tileStarts_ge (n w : ℕ) (hw : 0 < w) (hn : 0 < n) (h : n ≤ w) :
    tileStarts n w hw = [0] := by
  rw [tileStarts, tsGo, dif_pos hn, tsGo, dif_neg (by omega)]

theorem tsGo_one_length (n : ℕ) (hw : 0 < 1) (i : ℕ) :
    (tsGo n 1 hw i).length = n - i := by
  rw [tsGo]
  split
  · rename_i h
    rw [List.length_cons, tsGo_one_length n hw (i + 1)]
    omega
  · rename_i h
    simp only [List.length_nil]
    omega
termination_by n - i
decreasing_by all_goals omega

lemma tileRows_one {r : ℕ} (x : Fin r) : tileRows r 1 (x : ℕ) = {x} := by
  unfold tileRows
  ext a
  simp only [Finset.mem_filter, Finset.mem_univ, true_and, Finset.mem_singleton,
    lt_min_iff, Fin.ext_iff]
  have h1 := a.isLt
  omega

lemma tileCols_one {c : ℕ} (y : Fin c) : tileCols c 1 (y : ℕ) = {y} := by
  unfold tileCols
  ext b
  simp only [Finset.mem_filter, Finset.mem_univ, true_and, Finset.mem_singleton,
    lt_min_iff, Fin.ext_iff]
  have h1 := b.isLt
  omega

/-- C3: for every 2D image and integer threshold, the output is 255 at a
pixel iff the pixel's intensity strictly exceeds the threshold; a pixel
exactly equal to the threshold maps to 0. -/
theorem basic_threshold_strict {r c : ℕ} (img : Fin r → Fin c → ℤ) (t : ℤ)
    (x : Fin r) (y : Fin c) :
    (basicThreshold img t x y = 255 ↔ t < img x y) ∧
    (img x y = t → basicThreshold img t x y = 0) := by
  constructor
  · unfold basicThreshold
    by_cases h : t < img x y
    · simp [h]
    · simp [h]
  · intro heq
    unfold basicThreshold
    rw [heq, if_neg (lt_irrefl t)]

/-- C1: on a 2D image with 8-bit intensities, the Otsu scan stops at the
first candidate with `countAbove == 0` (`scanEnd`), and the selected
threshold lies in `[0, 255]`, maximizes `varBetween` over all scanned
candidates, is the lowest candidate achieving that maximum (strict `>`
keeps the first), and is applied with the strict basic-threshold rule. -/
theorem otsu_selects_first_argmax {r c : ℕ} (img : Fin r → Fin c → ℕ)
    (hv : ∀ x y, img x y ≤ 255) :
    otsuThreshold img ≤ 255 ∧
    (otsuThreshold img = 0 ∨ otsuThreshold img < scanEnd img) ∧
    (∀ j, j < scanEnd img → (total r c : ℤ) - (spre img j : ℤ) ≠ 0) ∧
    (scanEnd img < 256 → (total r c : ℤ) - (spre img (scanEnd img) : ℤ) = 0) ∧
    (∀ j, j < scanEnd img →
      varBetween img j ≤ varBetween img (otsuThreshold img)) ∧
    (∀ j, j < otsuThreshold img →
      varBetween img j < varBetween img (otsuThreshold img)) ∧
    (∀ x y, otsuOut img x y = 255 ↔ otsuThreshold img < img x y) := by
  have hspec := otsuGo_spec img 0 0 0 (Nat.zero_le _)
    (Or.inl ⟨rfl, rfl, fun j hj => absurd hj (Nat.not_lt_zero j)⟩)
  have hse := scanEnd_le_256 img
  have hiff : ∀ x y, otsuOut img x y = 255 ↔ otsuThreshold img < img x y := by
    intro x y
    unfold otsuOut
    by_cases h : otsuThreshold img < img x y
    · simp [h]
    · simp [h]
  rcases hspec with ⟨h1, h2⟩ | ⟨h1, h2, h3, h4⟩
  · have ht : otsuThreshold img = 0 := h1
    refine ⟨by omega, Or.inl ht, fun j hj => scanEnd_not_stop img hj,
      scanEnd_stop img, ?_, ?_, hiff⟩
    · intro j hj
      calc varBetween img j ≤ 0 := h2 j hj
        _ ≤ varBetween img (otsuThreshold img) := varBetween_nonneg img _
    · intro j hj
      rw [ht] at hj
      exact absurd hj (Nat.not_lt_zero j)
  · have ht1 : otsuThreshold img < scanEnd img := h1
    have ht2 : (∀ j, j < scanEnd img →
        varBetween img j ≤ varBetween img (otsuThreshold img)) := h3
    have ht3 : (∀ j, j < otsuThreshold img →
        varBetween img j < varBetween img (otsuThreshold img)) := h4
    exact ⟨by omega, Or.inr ht1, fun j hj => scanEnd_not_stop img hj,
      scanEnd_stop img, ht2, ht3, hiff⟩

theorem otsu_selects_first_argmax_witness :
    (∀ x y : Fin 1, (fun _ _ => 3 : Fin 1 → Fin 1 → ℕ) x y ≤ 255) ∧
    otsuThreshold (fun _ _ => 3 : Fin 1 → Fin 1 → ℕ) ≤ 255 :=
  ⟨by decide, (otsu_selects_first_argmax (fun _ _ => 3) (by decide)).1⟩

/-- C2: for a valid window, the tile starting points partition the grid
(each pixel is covered by exactly one tile), and the output at a pixel is
255 iff its intensity strictly exceeds the arithmetic mean of its own
(possibly border-clipped) tile, else 0. -/
theorem adaptive_partition_mean {r c : ℕ} (img : Fin r → Fin c → ℚ) (w : ℕ)
    (hw : 0 < w) (hwin : w ≤ min r c) (x : Fin r) (y : Fin c) :
    (∃! p : ℕ × ℕ, p.1 ∈ tileStarts r w hw ∧ p.2 ∈ tileStarts c w hw ∧
      (p.1 ≤ (x : ℕ) ∧ (x : ℕ) < min (p.1 + w) r) ∧
      (p.2 ≤ (y : ℕ) ∧ (y : ℕ) < min (p.2 + w) c)) ∧
    (adaptiveThreshold img w hw x y = 255 ↔
      tileMean img w (w * ((x : ℕ) / w)) (w * ((y : ℕ) / w)) < img x y) ∧
    (adaptiveThreshold img w hw x y = 0 ∨ adaptiveThreshold img w hw x y = 255) := by
  obtain ⟨hmemx, hlex, hltx⟩ := cover_start r w hw x
  obtain ⟨hmemy, hley, hlty⟩ := cover_start c w hw y
  refine ⟨⟨(w * ((x : ℕ) / w), w * ((y : ℕ) / w)),
    ⟨hmemx, hmemy, ⟨hlex, hltx⟩, ⟨hley, hlty⟩⟩, ?_⟩, ?_, ?_⟩
  · rintro ⟨p1, p2⟩ ⟨hm1, hm2, hc1, hc2⟩
    rw [Prod.mk.injEq]
    exact ⟨startUniq hw hm1 hc1, startUniq hw hm2 hc2⟩
  · rw [adaptive_apply]
    unfold tileVal
    by_cases h : tileMean img w (w * ((x : ℕ) / w)) (w * ((y : ℕ) / w)) < img x y
    · simp [h]
    · simp [h]
  · rw [adaptive_apply]
    unfold tileVal
    split
    · exact Or.inr rfl
    · exact Or.inl rfl

theorem adaptive_partition_mean_witness :
    ((0 : ℕ) < 1 ∧ 1 ≤ min 1 1) ∧
    (adaptiveThreshold (fun _ _ => (0 : ℚ) : Fin 1 → Fin 1 → ℚ) 1 Nat.one_pos 0 0 = 0 ∨
      adaptiveThreshold (fun _ _ => (0 : ℚ) : Fin 1 → Fin 1 → ℚ) 1 Nat.one_pos 0 0 = 255) :=
  ⟨⟨Nat.one_pos, by decide⟩,
    (adaptive_partition_mean (fun _ _ => (0 : ℚ)) 1 Nat.one_pos (by decide) 0 0).2.2⟩

/-- C4 (code bug evidence): on any rank-3 shape `[a, b, ch]`, both
`otsu_thresholding` and `adaptive_threshold` pass the rank check but then
fail at `r, c = image.shape` with a `ValueError` (too many values to
unpack) — before any grayscale conversion could run (`otsu_thresholding`
contains none, and the rank-3 branch of `adaptive_threshold` is
unreachable). -/
theorem rank3_shape_unpack_raises (a b ch : ℕ) :
    otsuShapePhase [a, b, ch] = Except.error PyErr.unpackMismatch ∧
    adaptiveShapePhase [a, b, ch] = Except.error PyErr.unpackMismatch := by
  constructor
  · unfold otsuShapePhase
    rw [if_pos (by simp)]
    rfl
  · unfold adaptiveShapePhase
    rw [if_pos (by simp)]
    rfl

/-- C5: the outputs of all three operations take no value other than 0 and
255 (the numeric carrier of the intensities, not a boolean); the output
grids are indexed exactly like the inputs. -/
theorem outputs_binary {r c : ℕ} (imgZ : Fin r → Fin c → ℤ) (t : ℤ)
    (imgQ : Fin r → Fin c → ℚ) (imgN : Fin r → Fin c → ℕ) (w : ℕ) (hw : 0 < w)
    (x : Fin r) (y : Fin c) :
    (basicThreshold imgZ t x y = 0 ∨ basicThreshold imgZ t x y = 255) ∧
    (adaptiveThreshold imgQ w hw x y = 0 ∨ adaptiveThreshold imgQ w hw x y = 255) ∧
    (otsuOut imgN x y = 0 ∨ otsuOut imgN x y = 255) := by
  refine ⟨?_, ?_, ?_⟩
  · unfold basicThreshold
    split
    · exact Or.inr rfl
    · exact Or.inl rfl
  · rw [adaptive_apply]
    unfold tileVal
    split
    · exact Or.inr rfl
    · exact Or.inl rfl
  · unfold otsuOut
    split
    · exact Or.inr rfl
    · exact Or.inl rfl

theorem outputs_binary_witness :
    ((0 : ℕ) < 1) ∧
    (adaptiveThreshold (fun _ _ => (0 : ℚ) : Fin 1 → Fin 1 → ℚ) 1 Nat.one_pos 0 0 = 0 ∨
      adaptiveThreshold (fun _ _ => (0 : ℚ) : Fin 1 → Fin 1 → ℚ) 1 Nat.one_pos 0 0 = 255) :=
  ⟨Nat.one_pos,
    (outputs_binary (fun _ _ => (0 : ℤ)) 0 (fun _ _ => (0 : ℚ)) (fun _ _ => 0)
      1 Nat.one_pos 0 0).2.1⟩

/-- C6: on a 2D image with 8-bit intensities, the padded histogram has
exactly 256 bins and its counts sum to `total = H * W`. -/
theorem otsu_histogram_shape {r c : ℕ} (img : Fin r → Fin c → ℕ)
    (hv : ∀ x y, img x y ≤ 255) :
    (histogram img).length = 256 ∧ (histogram img).sum = total r c ∧
    (histogram img).sum = r * c := by
  have hlt : ∀ v ∈ flatten img, v < 256 := by
    intro v hvm
    rcases (mem_flatten img v).1 hvm with ⟨x, y, hxy⟩
    rw [hxy]
    exact Nat.lt_succ_of_le (hv x y)
  have hbc : bclen (flatten img) ≤ 256 := bclen_le hlt
  have hsum : (histogram img).sum = r * c := by
    unfold histogram
    rw [List.sum_append, List.sum_replicate, smul_zero, add_zero]
    unfold bincount
    rw [sum_map_range, sum_count_eq_length _ _ (fun v hv2 => lt_bclen_of_mem hv2),
      flatten_length]
  refine ⟨?_, by rw [hsum]; rfl, hsum⟩
  unfold histogram
  rw [List.length_append, List.length_replicate, bincount_length]
  omega

theorem otsu_histogram_shape_witness :
    (∀ x y : Fin 1, (fun _ _ => 3 : Fin 1 → Fin 1 → ℕ) x y ≤ 255) ∧
    (histogram (fun _ _ => 3 : Fin 1 → Fin 1 → ℕ)).length = 256 :=
  ⟨by decide, (otsu_histogram_shape (fun _ _ => 3) (by decide)).1⟩

/-- C7: for a positive integer window, `adaptive_threshold` raises the
window-validation error exactly when `window > min(H, W)` — producing no
output at all in that case — and accepts every window up to and including
`min(H, W)`. -/
theorem adaptive_window_validation {r c : ℕ} (img : Fin r → Fin c → ℚ)
    (w : ℤ) (hw : 0 < w) :
    (min (r : ℤ) (c : ℤ) < w →
      adaptiveChecked img w hw = Except.error PyErr.invalidArgument) ∧
    (w ≤ min (r : ℤ) (c : ℤ) →
      ∃ out, adaptiveChecked img w hw = Except.ok out) := by
  constructor
  · intro h
    unfold adaptiveChecked adaptiveWindowCheck
    rw [if_pos h]
    rfl
  · intro h
    unfold adaptiveChecked adaptiveWindowCheck
    rw [if_neg (by omega)]
    exact ⟨_, rfl⟩

theorem adaptive_window_validation_witness :
    ((0 : ℤ) < 100) ∧
    adaptiveChecked (fun _ _ => (0 : ℚ) : Fin 10 → Fin 10 → ℚ) 100 (by norm_num)
      = Except.error PyErr.invalidArgument :=
  ⟨by norm_num,
    (adaptive_window_validation (fun _ _ => (0 : ℚ) : Fin 10 → Fin 10 → ℚ)
      100 (by norm_num)).1 (by omega)⟩

/-- C8 (counterexample): on a 2×3 image with `window = 2 = min(H, W)` the
nested loops process 2 tiles, not exactly one. -/
theorem adaptive_min_window_tile_count_cex :
    numTiles 2 3 2 (by norm_num) = 2 ∧ numTiles 2 3 2 (by norm_num) ≠ 1 := by
  have h : numTiles 2 3 2 (by norm_num) = 2 := by
    unfold numTiles tileStarts
    have h1 : ∀ hw : (0 : ℕ) < 2, tsGo 2 2 hw 0 = [0] := by
      intro hw
      rw [tsGo, dif_pos (by norm_num), tsGo, dif_neg (by norm_num)]
    have h2 : ∀ hw : (0 : ℕ) < 2, tsGo 3 2 hw 0 = [0, 0 + 2] := by
      intro hw
      rw [tsGo, dif_pos (by norm_num), tsGo, dif_pos (by norm_num), tsGo,
        dif_neg (by norm_num)]
    rw [h1, h2]
    norm_num
  exact ⟨h, by rw [h]; norm_num⟩

/-- C8 (amended): `window = min(H, W)` produces exactly one tile when the
image is square (`H = W`); `window = 1` produces `H * W` single-pixel
tiles, and the output is identically zero because a pixel is never
strictly greater than its own mean. -/
theorem adaptive_boundary_tiles (r c : ℕ) (hr : 0 < r) (hc : 0 < c) :
    (r = c → numTiles r c (min r c) (lt_min_iff.2 ⟨hr, hc⟩) = 1) ∧
    (∀ hw : (0 : ℕ) < 1, numTiles r c 1 hw = r * c) ∧
    (∀ (hw : (0 : ℕ) < 1) (img : Fin r → Fin c → ℚ) (x : Fin r) (y : Fin c),
      adaptiveThreshold img 1 hw x y = 0) := by
  refine ⟨?_, ?_, ?_⟩
  · intro h
    subst h
    unfold numTiles
    have hts : ∀ hw0 : 0 < min r r, tileStarts r (min r r) hw0 = [0] := by
      intro hw0
      exact tileStarts_ge r (min r r) hw0 hr (by omega)
    rw [hts]
    norm_num
  · intro hw
    unfold numTiles
    have hlen : ∀ n, (tileStarts n 1 hw).length = n := by
      intro n
      rw [tileStarts, tsGo_one_length]
      omega
    rw [hlen, hlen]
  · intro hw img x y
    rw [adaptive_apply]
    simp only [Nat.div_one, one_mul]
    have hmean : tileMean img 1 (x : ℕ) (y : ℕ) = img x y := by
      unfold tileMean
      rw [tileRows_one, tileCols_one]
      simp
    unfold tileVal
    rw [hmean, if_neg (lt_irrefl _)]

theorem adaptive_boundary_tiles_witness :
    ((0 : ℕ) < 2) ∧
    numTiles 2 2 (min 2 2) (lt_min_iff.2 ⟨by norm_num, by norm_num⟩) = 1 :=
  ⟨by norm_num, (adaptive_boundary_tiles 2 2 (by norm_num) (by norm_num)).1 rfl⟩

/-- C9: for a non-empty image, the window validation accepts every
non-positive integer window (it only rejects `window > min(H, W)`), and the
stride-`w` loop over either axis then never terminates for `w ≤ 0`, while
it terminates for every `w ≥ 1`. -/
theorem adaptive_nonpositive_window (r c : ℕ) (hr : 0 < r) (hc : 0 < c)
    (w : ℤ) :
    (w ≤ 0 →
      adaptiveWindowCheck r c w = Except.ok () ∧
      (∀ fuel, strideLoop (r : ℤ) w fuel 0 = none) ∧
      (∀ fuel, strideLoop (c : ℤ) w fuel 0 = none)) ∧
    (1 ≤ w →
      (∃ fuel l, strideLoop (r : ℤ) w fuel 0 = some l) ∧
      (∃ fuel l, strideLoop (c : ℤ) w fuel 0 = some l)) := by
  constructor
  · intro hw
    refine ⟨?_,
      fun fuel => strideLoop_diverges _ w (by exact_mod_cast hr) hw fuel 0 (le_refl 0),
      fun fuel => strideLoop_diverges _ w (by exact_mod_cast hc) hw fuel 0 (le_refl 0)⟩
    unfold adaptiveWindowCheck
    rw [if_neg (by omega)]
  · intro hw
    constructor
    · obtain ⟨l, hl⟩ := strideLoop_terminates (r : ℤ) w hw r 0 (by omega)
      exact ⟨r, l, hl⟩
    · obtain ⟨l, hl⟩ := strideLoop_terminates (c : ℤ) w hw c 0 (by omega)
      exact ⟨c, l, hl⟩

theorem adaptive_nonpositive_window_witness :
    ((0 : ℕ) < 1) ∧ (∀ fuel, strideLoop ((1 : ℕ) : ℤ) (-1) fuel 0 = none) :=
  ⟨Nat.one_pos,
    ((adaptive_nonpositive_window 1 1 Nat.one_pos Nat.one_pos (-1)).1
      (by norm_num)).2.1⟩

/-- C10: on a non-empty constant image of 8-bit value `v`, no candidate ever
beats the initial running maximum 0, so the selected Otsu threshold is 0 and
the output is all 255 when `v > 0` and all 0 when `v = 0`. -/
theorem otsu_constant_image {r c : ℕ} (hr : 0 < r) (hc : 0 < c) (v : ℕ)
    (hv : v ≤ 255) :
    otsuThreshold (fun _ _ => v : Fin r → Fin c → ℕ) = 0 ∧
    ∀ x y, otsuOut (fun _ _ => v : Fin r → Fin c → ℕ) x y
      = if 0 < v then 255 else 0 := by
  have hstopv : (total r c : ℤ)
      - (spre (fun _ _ => v : Fin r → Fin c → ℕ) v : ℤ) = 0 := by
    rw [const_spre, if_pos (le_refl v)]
    simp [total]
  have hscan_le : scanEnd (fun _ _ => v : Fin r → Fin c → ℕ) ≤ v := by
    by_contra h
    push_neg at h
    exact scanEnd_not_stop _ h hstopv
  have hvar0 : ∀ j, j < scanEnd (fun _ _ => v : Fin r → Fin c → ℕ) →
      varBetween (fun _ _ => v : Fin r → Fin c → ℕ) j = 0 := by
    intro j hj
    have hsj : spre (fun _ _ => v : Fin r → Fin c → ℕ) j = 0 := by
      rw [const_spre, if_neg (by omega)]
    unfold varBetween
    rw [hsj]
    push_cast
    ring
  have hspec := otsuGo_spec (fun _ _ => v : Fin r → Fin c → ℕ) 0 0 0
    (Nat.zero_le _) (Or.inl ⟨rfl, rfl, fun j hj => absurd hj (Nat.not_lt_zero j)⟩)
  have hth : otsuThreshold (fun _ _ => v : Fin r → Fin c → ℕ) = 0 := by
    rcases hspec with ⟨h1, _⟩ | ⟨h1, h2, _⟩
    · exact h1
    · exfalso
      rw [hvar0 _ h1] at h2
      exact lt_irrefl 0 h2
  refine ⟨hth, ?_⟩
  intro x y
  unfold otsuOut
  rw [hth]

theorem otsu_constant_image_witness :
    ((0 : ℕ) < 1 ∧ (7 : ℕ) ≤ 255) ∧
    otsuThreshold (fun _ _ => 7 : Fin 1 → Fin 1 → ℕ) = 0 :=
  ⟨⟨Nat.one_pos, by norm_num⟩,
    (otsu_constant_image Nat.one_pos Nat.one_pos 7 (by norm_num)).1⟩

end ThresholdOps
